import Mathlib

/-!
Shallow embedding of the `revolver` REPL engine (Rust) in Lean 4.

The embedding follows the source files:
  * `src/command.rs`      — command registry (`Commander`), construction
    (`TryFrom`), resolution (`Commander::parse`), `ParseCommandError`;
  * `src/command/lint.rs`  — description lint engine;
  * `src/command/quit.rs`  — the `quit` command;
  * `src/terminal.rs`      — terminal capability (`print`, `print_line`,
    `read_line`, `read_value`);
  * `src/looper.rs`        — the loop engine (`Looper::run`, `RunFlag`).

Modelling conventions:
  * Rust `String`/`&str` become Lean `String`; Rust byte lengths
    (`str::len`) are modelled by the UTF-8 encoded length (`rustLen`);
    Rust byte-index splitting at an ASCII space coincides with
    character-index splitting, which is how it is modelled.
  * The `Terminal` trait is modelled by a finite interaction script, the
    shape of the repository's own mock terminal (`terminal/mock.rs`):
    successive `read_line` results are drawn from a list (exhaustion
    yields an access error, as in `mock::lines`), successive `print`
    results from a list of optional injected failures, and every print
    invocation is recorded in an output transcript.
  * Trait objects (`Box<dyn NamedCommandParser>`, `Box<dyn Command>`)
    become records/functions over an abstract action type `α`.
  * Divergence (the unbounded retry loop in `read_value` and the
    unbounded REPL loop in `run`) is modelled with fuel; `none` means
    the computation was still looping when the fuel ran out.
  * A Rust panic (`Commander::new`'s `unwrap`) is modelled as
    `Option.none`: the value is never returned to the caller.
-/

/-- UTF-8 byte width of one character, as encoded by Rust `char`/`str`. -/
def utf8Width (c : Char) : Nat :=
  if c.toNat < 0x80 then 1
  else if c.toNat < 0x800 then 2
  else if c.toNat < 0x10000 then 3
  else 4

/-- Rust `str::len`: length in UTF-8 bytes (not characters). -/
def rustLen (s : String) : Nat :=
  (s.data.map utf8Width).sum

/-- ASCII fragment of Rust `char::is_whitespace`, enough for the
whitespace actually exercised by the engine. -/
def isWsChar (c : Char) : Bool :=
  c == ' ' || c == '\t' || c == '\n' || c == '\r'

/-- Rust `str::trim` on a character list: strip leading and trailing
whitespace. -/
def trimChars (l : List Char) : List Char :=
  ((l.dropWhile isWsChar).reverse.dropWhile isWsChar).reverse

/-- Rust `str::trim`. -/
def rustTrim (s : String) : String :=
  ⟨trimChars s.data⟩

/-- Rust `str::starts_with`: byte-prefix test, equivalently a
character-prefix test on valid UTF-8. -/
def rustStartsWith (s pre : String) : Bool :=
  pre.data.isPrefixOf s.data

theorem string_data_append (a b : String) : (a ++ b).data = a.data ++ b.data := by
  cases a
  cases b
  rfl

/-- An example of using a command (`Example` in `command.rs`). -/
structure CmdExample where
  scenario : String
  command : String
deriving DecidableEq

/-- A comprehensive description of a command (`Description` in
`command.rs`). -/
structure Description where
  purpose : String
  usage : String
  examples : List CmdExample
deriving DecidableEq

/-- One trait object `Box<dyn NamedCommandParser<T, Context = C, Error = E>>`
from `command.rs`: a command definition with its `parse` operation.  The
action type `α` stands for the boxed `Command` objects the parser
produces; `ParseCommandError` is a plain string (its `Display` is its
payload). -/
structure NamedCommandParser (α : Type) where
  name : String
  shorthand : Option String
  description : Description
  parse : String → Except String α

/-- A placeholder definition used to totalise list indexing; the registry
invariants proved below show it is never reached. -/
def NamedCommandParser.dummy {α : Type} : NamedCommandParser α :=
  { name := "", shorthand := none,
    description := { purpose := "", usage := "", examples := [] },
    parse := fun _ => .error "" }

/-- The dispatch maps `by_shorthand`/`by_name` of `Commander`: a
`BTreeMap<String, usize>` modelled as an association list with unique
keys, mapping key to index into the parser vector. -/
abbrev DispatchMap := List (String × Nat)

/-- `BTreeMap::get`. -/
def mget : DispatchMap → String → Option Nat
  | [], _ => none
  | (k, v) :: rest, key => if k = key then some v else mget rest key

/-- The keys of a dispatch map. -/
def mkeys (m : DispatchMap) : List String :=
  m.map Prod.fst

/-- `BTreeMap::contains_key`. -/
def mcontains (m : DispatchMap) (key : String) : Bool :=
  (mget m key).isSome

/-- The `duplicate_error` helper of `TryFrom for Commander`. -/
def duplicateError (key : String) : String :=
  "duplicate command parser for '" ++ key ++ "'"

/-- The `insert` helper of `TryFrom for Commander`: vacant entries are
inserted, occupied entries raise the duplicate error. -/
def minsert (m : DispatchMap) (key : String) (v : Nat) : Except String DispatchMap :=
  if mcontains m key then .error (duplicateError key) else .ok (m ++ [(key, v)])

/-- The `Commander` registry of `command.rs`: the parser vector plus the
two dispatch maps. -/
structure Commander (α : Type) where
  parsers : List (NamedCommandParser α)
  byShorthand : DispatchMap
  byName : DispatchMap

/-- The error message of the `name().len() < 2` check in
`TryFrom for Commander`. -/
def invalidNameMsg (name : String) : String :=
  "invalid command name '" ++ name ++ "': must contain at least 2 characters"

/-- The message wrapped around a failing example parse in
`TryFrom for Commander`. -/
def unparsableExampleMsg (command err : String) : String :=
  "unparsable example command '" ++ command ++ "': " ++ err

/-- `Example::assert_parsable` folded over a description's examples, with
the error wrapping done at the call site in `TryFrom for Commander`. -/
def assertExamples (p : NamedCommandParser α) : List CmdExample → Except String Unit
  | [] => .ok ()
  | ex :: rest =>
    match p.parse ex.command with
    | .ok _ => assertExamples p rest
    | .error err => .error (unparsableExampleMsg ex.command err)

/-- The shorthand block of `TryFrom for Commander`: check the shorthand
against the name map, then insert it into the shorthand map. -/
def registerShorthand (p : NamedCommandParser α) (index : Nat)
    (bysh byname : DispatchMap) : Except String DispatchMap :=
  match p.shorthand with
  | none => .ok bysh
  | some sh =>
    if mcontains byname sh then .error (duplicateError sh)
    else minsert bysh sh index

/-- The name block of `TryFrom for Commander`: length check, check the
name against the shorthand map, insert into the name map. -/
def registerName (p : NamedCommandParser α) (index : Nat)
    (bysh byname : DispatchMap) : Except String DispatchMap :=
  if rustLen p.name < 2 then .error (invalidNameMsg p.name)
  else if mcontains bysh p.name then .error (duplicateError p.name)
  else minsert byname p.name index

/-- One iteration of the `TryFrom for Commander` loop, for the parser at
`index`. -/
def registerOne (p : NamedCommandParser α) (index : Nat)
    (bysh byname : DispatchMap) : Except String (DispatchMap × DispatchMap) :=
  match assertExamples p p.description.examples with
  | .error e => .error e
  | .ok _ =>
    match registerShorthand p index bysh byname with
    | .error e => .error e
    | .ok bysh' =>
      match registerName p index bysh' byname with
      | .error e => .error e
      | .ok byname' => .ok (bysh', byname')

/-- The `TryFrom for Commander` loop over the parser vector. -/
def tryFromGo : List (NamedCommandParser α) → Nat → DispatchMap → DispatchMap →
    Except String (DispatchMap × DispatchMap)
  | [], _, bysh, byname => .ok (bysh, byname)
  | p :: rest, i, bysh, byname =>
    match registerOne p i bysh byname with
    | .error e => .error e
    | .ok (bysh', byname') => tryFromGo rest (i + 1) bysh' byname'

/-- `TryFrom<Vec<Box<dyn NamedCommandParser>>> for Commander`:
all-or-nothing construction of the dispatch table. -/
def Commander.tryFrom (parsers : List (NamedCommandParser α)) :
    Except String (Commander α) :=
  match tryFromGo parsers 0 [] [] with
  | .error e => .error e
  | .ok (bysh, byname) => .ok ⟨parsers, bysh, byname⟩

/-- `Commander::new`: `try_into().unwrap()`.  The panic on a construction
error is modelled as `none`; the error value is never returned. -/
def Commander.new (parsers : List (NamedCommandParser α)) : Option (Commander α) :=
  (Commander.tryFrom parsers).toOption

/-- `Commander::parse` (`command.rs`): split the input at the first
space (byte index, here the equivalent character index), look the
identifier up in the shorthand map and then the name map, and delegate
the remainder to the matched parser. -/
def Commander.parse (c : Commander α) (s : String) : Except String α :=
  if s.data.isEmpty then .error "empty command string"
  else
    let index := s.data.findIdx (fun ch => ch == ' ')
    let name : String := ⟨s.data.take index⟩
    match (mget c.byShorthand name).orElse (fun _ => mget c.byName name) with
    | none => .error ("no command parser for '" ++ name ++ "'")
    | some parserIdx =>
      let commandFrag : String :=
        if index = s.data.length then "" else ⟨s.data.drop (index + 1)⟩
      (c.parsers.getD parserIdx NamedCommandParser.dummy).parse commandFrag

/-- The identifier of an input line, per the spec: the substring before
the first space (the whole string when there is no space). -/
def identOf (s : String) : String :=
  ⟨s.data.takeWhile (fun ch => !(ch == ' '))⟩

/-- The argument fragment of an input line, per the spec: everything
after the first space, untrimmed; empty when there is no space. -/
def fragOf (s : String) : String :=
  match s.data.dropWhile (fun ch => !(ch == ' ')) with
  | [] => ""
  | _ :: rest => ⟨rest⟩

/-- The spec's description of resolution: look the identifier up first in
the shorthand map, fall back to the name map, report a miss as
`no command parser for '<identifier>'`, and otherwise delegate the
argument fragment verbatim to the matched definition's `parse`. -/
def specDispatch (c : Commander α) (ident frag : String) : Except String α :=
  match mget c.byShorthand ident with
  | some i => (c.parsers.getD i NamedCommandParser.dummy).parse frag
  | none =>
    match mget c.byName ident with
    | some i => (c.parsers.getD i NamedCommandParser.dummy).parse frag
    | none => .error ("no command parser for '" ++ ident ++ "'")

theorem take_findIdx (p : Char → Bool) :
    ∀ l : List Char, l.take (l.findIdx p) = l.takeWhile (fun c => !(p c)) := by
  intro l
  induction l with
  | nil => rfl
  | cons a l ih =>
    rw [List.findIdx_cons, List.takeWhile_cons]
    cases h : p a with
    | true => simp [h]
    | false => simp [h, ih]

theorem drop_findIdx (p : Char → Bool) :
    ∀ l : List Char, l.drop (l.findIdx p) = l.dropWhile (fun c => !(p c)) := by
  intro l
  induction l with
  | nil => rfl
  | cons a l ih =>
    rw [List.findIdx_cons, List.dropWhile_cons]
    cases h : p a with
    | true => simp [h]
    | false => simp [h, ih]

theorem findIdx_eq_length_of_all_neg (p : Char → Bool) :
    ∀ l : List Char, (∀ c ∈ l, p c = false) → l.findIdx p = l.length := by
  intro l
  induction l with
  | nil => intro; rfl
  | cons a l ih =>
    intro h
    rw [List.findIdx_cons, h a (by simp)]
    simp [ih fun c hc => h c (by simp [hc])]

theorem takeWhile_append_of_all_pos (q : Char → Bool) (x : Char) (hx : q x = false) :
    ∀ pre suf : List Char, (∀ c ∈ pre, q c = true) →
      (pre ++ x :: suf).takeWhile q = pre ∧ (pre ++ x :: suf).dropWhile q = x :: suf := by
  intro pre
  induction pre with
  | nil => intro suf _; simp [List.takeWhile_cons, List.dropWhile_cons, hx]
  | cons a pre ih =>
    intro suf h
    have ha : q a = true := h a (by simp)
    have := ih suf fun c hc => h c (by simp [hc])
    simp [List.takeWhile_cons, List.dropWhile_cons, ha, this.1, this.2]

/-- Splitting behaviour of `Commander::parse` on any non-empty input:
the result is the spec-side dispatch of the identifier and the verbatim
argument fragment. -/
theorem parse_eq_specDispatch {α : Type} (c : Commander α) (s : String)
    (hs : s.data ≠ []) :
    Commander.parse c s = specDispatch c (identOf s) (fragOf s) := by
  unfold Commander.parse
  have hne : s.data.isEmpty = false := by
    cases h : s.data with
    | nil => exact absurd h hs
    | cons a l => rfl
  rw [hne]
  simp only [Bool.false_eq_true, if_false]
  have htake := take_findIdx (fun ch => ch == ' ') s.data
  have hdrop := drop_findIdx (fun ch => ch == ' ') s.data
  have hname : (⟨s.data.take (s.data.findIdx (fun ch => ch == ' '))⟩ : String) = identOf s := by
    rw [identOf]
    exact congrArg String.mk htake
  rw [hname]
  rcases Nat.lt_or_ge (s.data.findIdx (fun ch => ch == ' ')) s.data.length with hlt | hge
  · -- a space occurs: the fragment is everything after it
    have hfrag : (if s.data.findIdx (fun ch => ch == ' ') = s.data.length then ("" : String)
        else ⟨s.data.drop (s.data.findIdx (fun ch => ch == ' ') + 1)⟩) = fragOf s := by
      rw [if_neg (Nat.ne_of_lt hlt), fragOf]
      rw [← hdrop, List.drop_eq_getElem_cons hlt]
    rw [hfrag]
    cases h1 : mget c.byShorthand (identOf s) with
    | some i => simp [specDispatch, Option.orElse, h1]
    | none =>
      cases h2 : mget c.byName (identOf s) with
      | some i => simp [specDispatch, Option.orElse, h1, h2]
      | none => simp [specDispatch, Option.orElse, h1, h2]
  · -- no space: the fragment is empty
    have heq : s.data.findIdx (fun ch => ch == ' ') = s.data.length :=
      Nat.le_antisymm (List.findIdx_le_length (fun ch => ch == ' ')) hge
    have hfrag : (if s.data.findIdx (fun ch => ch == ' ') = s.data.length then ("" : String)
        else ⟨s.data.drop (s.data.findIdx (fun ch => ch == ' ') + 1)⟩) = fragOf s := by
      rw [if_pos heq, fragOf]
      have : s.data.dropWhile (fun c => !(c == ' ')) = [] := by
        rw [← hdrop, heq, List.drop_length]
      rw [this]
    rw [hfrag]
    cases h1 : mget c.byShorthand (identOf s) with
    | some i => simp [specDispatch, Option.orElse, h1]
    | none =>
      cases h2 : mget c.byName (identOf s) with
      | some i => simp [specDispatch, Option.orElse, h1, h2]
      | none => simp [specDispatch, Option.orElse, h1, h2]

/-- On an input assembled from a space-free identifier, a space and an
arbitrary fragment, the split recovers both parts exactly (interior and
trailing whitespace of the fragment preserved). -/
theorem identOf_fragOf_append (ident frag : String)
    (h : ∀ ch ∈ ident.data, ch ≠ ' ') :
    identOf (ident ++ " " ++ frag) = ident ∧ fragOf (ident ++ " " ++ frag) = frag := by
  have hdata : (ident ++ " " ++ frag).data = ident.data ++ ' ' :: frag.data := by
    rw [string_data_append, string_data_append]
    simp [List.append_assoc]
  have hall : ∀ c ∈ ident.data, (!(c == ' ')) = true := by
    intro c hc
    have := h c hc
    simpa using this
  have hsp : (!(' ' == ' ')) = false := by decide
  have hsplit := takeWhile_append_of_all_pos (fun ch => !(ch == ' ')) ' ' hsp
    ident.data frag.data hall
  constructor
  · rw [identOf, hdata, hsplit.1]
  · rw [fragOf, hdata, hsplit.2]

/-- On a space-free input the identifier is the whole string and the
fragment is empty. -/
theorem identOf_fragOf_nospace (ident : String)
    (h : ∀ ch ∈ ident.data, ch ≠ ' ') :
    identOf ident = ident ∧ fragOf ident = "" := by
  have hall : ∀ c ∈ ident.data, (!(c == ' ')) = true := by
    intro c hc
    have := h c hc
    simpa using this
  constructor
  · rw [identOf, List.takeWhile_eq_self_iff.mpr hall]
  · rw [fragOf, List.dropWhile_eq_nil_iff.mpr (fun c hc => hall c hc)]

/-- C1: for every registry and every non-empty input, `Commander::parse`
splits at the first space (no space: whole string is the identifier,
empty fragment), resolves the identifier through the shorthand map and
then the name map, and delegates the untrimmed argument fragment
verbatim to the matched definition's `parse`, returning its result
unchanged; the split recovers identifier and fragment exactly, interior
and trailing whitespace preserved. -/
theorem commander_parse_splits_and_delegates (α : Type) (c : Commander α)
    (s : String) (hs : s.data ≠ []) :
    Commander.parse c s = specDispatch c (identOf s) (fragOf s) ∧
    (∀ ident frag : String, (∀ ch ∈ ident.data, ch ≠ ' ') →
      identOf (ident ++ " " ++ frag) = ident ∧
      fragOf (ident ++ " " ++ frag) = frag ∧
      (ident.data ≠ [] → identOf ident = ident ∧ fragOf ident = "")) := by
  refine ⟨parse_eq_specDispatch c s hs, ?_⟩
  intro ident frag h
  have h1 := identOf_fragOf_append ident frag h
  exact ⟨h1.1, h1.2, fun _ => identOf_fragOf_nospace ident h⟩

/-- A small concrete registry used to instantiate universally quantified
theorems: an `ec` command (shorthand `e`) whose action is the byte length
of its argument. -/
def demoDefs : List (NamedCommandParser Nat) :=
  [{ name := "ec", shorthand := some "e",
     description := { purpose := "Echoes.", usage := "", examples := [] },
     parse := fun s => .ok (rustLen s) }]

/-- The registry built from `demoDefs`. -/
def demoCmdr : Commander Nat :=
  ⟨demoDefs, [("e", 0)], [("ec", 0)]⟩

theorem commander_parse_splits_and_delegates_w :
    ("e  a " : String).data ≠ [] ∧
    (Commander.parse demoCmdr "e  a " =
        specDispatch demoCmdr (identOf "e  a ") (fragOf "e  a ") ∧
      (∀ ident frag : String, (∀ ch ∈ ident.data, ch ≠ ' ') →
        identOf (ident ++ " " ++ frag) = ident ∧
        fragOf (ident ++ " " ++ frag) = frag ∧
        (ident.data ≠ [] → identOf ident = ident ∧ fragOf ident = ""))) :=
  ⟨by decide, commander_parse_splits_and_delegates Nat demoCmdr "e  a " (by decide)⟩

theorem mcontains_iff (m : DispatchMap) (k : String) :
    mcontains m k = true ↔ k ∈ mkeys m := by
  induction m with
  | nil => simp [mcontains, mget, mkeys]
  | cons a m ih =>
    obtain ⟨k', v⟩ := a
    by_cases h : k' = k
    · subst h
      simp [mcontains, mget, mkeys]
    · simp only [mcontains, mget, if_neg h, mkeys, List.map_cons, List.mem_cons]
      rw [← mkeys]
      constructor
      · intro hm
        exact Or.inr ((ih).mp hm)
      · intro hm
        rcases hm with hm | hm
        · exact absurd hm.symm h
        · exact ih.mpr hm

theorem mcontains_false_iff (m : DispatchMap) (k : String) :
    mcontains m k = false ↔ k ∉ mkeys m := by
  rw [← mcontains_iff]
  cases mcontains m k <;> simp

theorem mkeys_append_single (m : DispatchMap) (k : String) (v : Nat) :
    mkeys (m ++ [(k, v)]) = mkeys m ++ [k] := by
  simp [mkeys]

theorem minsert_ok (m m' : DispatchMap) (k : String) (v : Nat)
    (h : minsert m k v = .ok m') : m' = m ++ [(k, v)] ∧ k ∉ mkeys m := by
  unfold minsert at h
  by_cases hc : mcontains m k = true
  · rw [if_pos hc] at h
    exact absurd h (by simp)
  · rw [if_neg hc] at h
    have hk : k ∉ mkeys m := (mcontains_false_iff m k).mp (by
      cases hb : mcontains m k
      · rfl
      · exact absurd hb hc)
    exact ⟨by injection h with h'; exact h'.symm, hk⟩

/-- All maps entries of the shorthand map point at the parser that
declared that shorthand. -/
def shMapsTo (parsers : List (NamedCommandParser α)) (m : DispatchMap) : Prop :=
  ∀ k i, (k, i) ∈ m → ∃ d, parsers.get? i = some d ∧ d.shorthand = some k

/-- All entries of the name map point at the parser that declared that
name. -/
def nmMapsTo (parsers : List (NamedCommandParser α)) (m : DispatchMap) : Prop :=
  ∀ k i, (k, i) ∈ m → ∃ d, parsers.get? i = some d ∧ d.name = k

theorem registerShorthand_ok {α : Type} (p : NamedCommandParser α) (i : Nat)
    (s n s₁ : DispatchMap) (h : registerShorthand p i s n = .ok s₁) :
    (p.shorthand = none ∧ s₁ = s) ∨
    (∃ sh, p.shorthand = some sh ∧ sh ∉ mkeys n ∧ sh ∉ mkeys s ∧
      s₁ = s ++ [(sh, i)]) := by
  cases hsh : p.shorthand with
  | none =>
    simp only [registerShorthand, hsh] at h
    exact Or.inl ⟨rfl, by injection h with h'; exact h'.symm⟩
  | some sh =>
    simp only [registerShorthand, hsh] at h
    by_cases hc : mcontains n sh = true
    · rw [if_pos hc] at h
      exact absurd h (by simp)
    · rw [if_neg hc] at h
      have hn : sh ∉ mkeys n := (mcontains_false_iff n sh).mp (by
        cases hb : mcontains n sh
        · rfl
        · exact absurd hb hc)
      have := minsert_ok s s₁ sh i h
      exact Or.inr ⟨sh, rfl, hn, this.2, this.1⟩

theorem registerName_ok {α : Type} (p : NamedCommandParser α) (i : Nat)
    (s n n₁ : DispatchMap) (h : registerName p i s n = .ok n₁) :
    ¬ rustLen p.name < 2 ∧ p.name ∉ mkeys s ∧ p.name ∉ mkeys n ∧
      n₁ = n ++ [(p.name, i)] := by
  unfold registerName at h
  by_cases hlen : rustLen p.name < 2
  · rw [if_pos hlen] at h
    exact absurd h (by simp)
  · rw [if_neg hlen] at h
    by_cases hc : mcontains s p.name = true
    · rw [if_pos hc] at h
      exact absurd h (by simp)
    · rw [if_neg hc] at h
      have hs : p.name ∉ mkeys s := (mcontains_false_iff s p.name).mp (by
        cases hb : mcontains s p.name
        · rfl
        · exact absurd hb hc)
      have := minsert_ok n n₁ p.name i h
      exact ⟨hlen, hs, this.2, this.1⟩

theorem registerOne_ok {α : Type} (p : NamedCommandParser α) (i : Nat)
    (s n s₁ n₁ : DispatchMap) (h : registerOne p i s n = .ok (s₁, n₁)) :
    ((p.shorthand = none ∧ s₁ = s) ∨
      (∃ sh, p.shorthand = some sh ∧ sh ∉ mkeys n ∧ sh ∉ mkeys s ∧
        s₁ = s ++ [(sh, i)])) ∧
    ¬ rustLen p.name < 2 ∧ p.name ∉ mkeys s₁ ∧ p.name ∉ mkeys n ∧
      n₁ = n ++ [(p.name, i)] := by
  cases hex : assertExamples p p.description.examples with
  | error e =>
    simp only [registerOne, hex] at h
    exact Except.noConfusion h
  | ok u =>
    cases hsh : registerShorthand p i s n with
    | error e =>
      simp only [registerOne, hex, hsh] at h
      exact Except.noConfusion h
    | ok s₁' =>
      cases hnm : registerName p i s₁' n with
      | error e =>
        simp only [registerOne, hex, hsh, hnm] at h
        exact Except.noConfusion h
      | ok n₁' =>
        simp only [registerOne, hex, hsh, hnm] at h
        have hpair : s₁' = s₁ ∧ n₁' = n₁ := by
          injection h with h'
          injection h' with ha hb
          exact ⟨ha, hb⟩
        obtain ⟨ha, hb⟩ := hpair
        subst ha
        subst hb
        exact ⟨registerShorthand_ok p i s n _ hsh, registerName_ok p i _ n _ hnm⟩

theorem tryFromGo_invariant {α : Type} (rest : List (NamedCommandParser α)) :
    ∀ (parsers : List (NamedCommandParser α)) (i : Nat) (s n s' n' : DispatchMap),
      (∀ j : Nat, parsers.get? (i + j) = rest.get? j) →
      tryFromGo rest i s n = .ok (s', n') →
      shMapsTo parsers s → nmMapsTo parsers n →
      (∀ k, k ∈ mkeys s → k ∉ mkeys n) →
      (mkeys s).Nodup → (mkeys n).Nodup →
      shMapsTo parsers s' ∧ nmMapsTo parsers n' ∧
        (∀ k, k ∈ mkeys s' → k ∉ mkeys n') ∧ (mkeys s').Nodup ∧ (mkeys n').Nodup := by
  induction rest with
  | nil =>
    intro parsers i s n s' n' _ h hs hn hd hds hdn
    simp only [tryFromGo] at h
    have hpair : s = s' ∧ n = n' := by
      injection h with h'
      injection h' with ha hb
      exact ⟨ha, hb⟩
    obtain ⟨rfl, rfl⟩ := hpair
    exact ⟨hs, hn, hd, hds, hdn⟩
  | cons p rst ih =>
    intro parsers i s n s' n' halign h hs hn hd hds hdn
    cases hone : registerOne p i s n with
    | error e =>
      simp only [tryFromGo, hone] at h
      exact Except.noConfusion h
    | ok pair =>
      obtain ⟨s₁, n₁⟩ := pair
      simp only [tryFromGo, hone] at h
      have hro := registerOne_ok p i s n s₁ n₁ hone
      have hp : parsers.get? i = some p := by
        have := halign 0
        simpa using this
      -- the updated shorthand map keeps its invariants
      have hs₁ : shMapsTo parsers s₁ := by
        rcases hro.1 with ⟨_, rfl⟩ | ⟨sh, hsh, _, _, rfl⟩
        · exact hs
        · intro k j hk
          rcases List.mem_append.mp hk with hk | hk
          · exact hs k j hk
          · simp only [List.mem_singleton, Prod.mk.injEq] at hk
            exact ⟨p, hk.2 ▸ hp, hk.1 ▸ hsh⟩
      have hkeys₁ : mkeys s₁ = mkeys s ∨ ∃ sh, p.shorthand = some sh ∧
          sh ∉ mkeys n ∧ sh ∉ mkeys s ∧ mkeys s₁ = mkeys s ++ [sh] := by
        rcases hro.1 with ⟨_, rfl⟩ | ⟨sh, hsh, h1, h2, rfl⟩
        · exact Or.inl rfl
        · exact Or.inr ⟨sh, hsh, h1, h2, mkeys_append_single s sh i⟩
      have hds₁ : (mkeys s₁).Nodup := by
        rcases hkeys₁ with hk | ⟨sh, _, _, h2, hk⟩
        · exact hk ▸ hds
        · rw [hk, List.nodup_append]
          exact ⟨hds, List.nodup_singleton sh, by
            intro a ha hb
            simp only [List.mem_singleton] at hb
            exact h2 (hb ▸ ha)⟩
      obtain ⟨hlen, hnotsh, hnotnm, rfl⟩ := hro.2
      have hn₁ : nmMapsTo parsers (n ++ [(p.name, i)]) := by
        intro k j hk
        rcases List.mem_append.mp hk with hk | hk
        · exact hn k j hk
        · simp only [List.mem_singleton, Prod.mk.injEq] at hk
          exact ⟨p, hk.2 ▸ hp, hk.1.symm⟩
      have hdn₁ : (mkeys (n ++ [(p.name, i)])).Nodup := by
        rw [mkeys_append_single, List.nodup_append]
        exact ⟨hdn, List.nodup_singleton _, by
          intro a ha hb
          simp only [List.mem_singleton] at hb
          exact hnotnm (hb ▸ ha)⟩
      have hd₁ : ∀ k, k ∈ mkeys s₁ → k ∉ mkeys (n ++ [(p.name, i)]) := by
        intro k hk hkn
        rw [mkeys_append_single] at hkn
        rcases List.mem_append.mp hkn with hkn | hkn
        · rcases hkeys₁ with hke | ⟨sh, _, h1, _, hke⟩
          · exact hd k (hke ▸ hk) hkn
          · rw [hke] at hk
            rcases List.mem_append.mp hk with hk | hk
            · exact hd k hk hkn
            · simp only [List.mem_singleton] at hk
              exact h1 (hk ▸ hkn)
        · simp only [List.mem_singleton] at hkn
          exact hnotsh (hkn ▸ hk)
      have halign' : ∀ j : Nat, parsers.get? (i + 1 + j) = rst.get? j := by
        intro j
        have := halign (j + 1)
        have harith : i + (j + 1) = i + 1 + j := by omega
        rw [harith] at this
        simpa using this
      exact ih parsers (i + 1) s₁ (n ++ [(p.name, i)]) s' n' halign' h hs₁ hn₁ hd₁ hds₁ hdn₁

/-- C2: when `try_from` succeeds, the dispatch table is conflict-free:
no key occurs in both maps, each map has unique keys, and every key maps
to the index of the definition that declared it as its shorthand
(respectively name). -/
theorem commander_tryFrom_dispatch_invariants (α : Type)
    (defs : List (NamedCommandParser α)) (c : Commander α)
    (h : Commander.tryFrom defs = .ok c) :
    c.parsers = defs ∧
    (∀ k, ¬(k ∈ mkeys c.byShorthand ∧ k ∈ mkeys c.byName)) ∧
    (mkeys c.byShorthand).Nodup ∧ (mkeys c.byName).Nodup ∧
    (∀ k i, (k, i) ∈ c.byShorthand →
      ∃ d, defs.get? i = some d ∧ d.shorthand = some k) ∧
    (∀ k i, (k, i) ∈ c.byName → ∃ d, defs.get? i = some d ∧ d.name = k) := by
  cases htg : tryFromGo defs 0 [] [] with
  | error e =>
    simp only [Commander.tryFrom, htg] at h
    exact Except.noConfusion h
  | ok pair =>
    obtain ⟨s, n⟩ := pair
    simp only [Commander.tryFrom, htg] at h
    have hc : c = ⟨defs, s, n⟩ := by
      injection h with h'
      exact h'.symm
    subst hc
    have hinv := tryFromGo_invariant defs defs 0 [] [] s n
      (fun j => by simp) htg
      (fun k i hk => absurd hk (List.not_mem_nil _))
      (fun k i hk => absurd hk (List.not_mem_nil _))
      (fun k hk => absurd hk (List.not_mem_nil _))
      List.nodup_nil List.nodup_nil
    exact ⟨rfl, fun k hk => hinv.2.2.1 k hk.1 hk.2, hinv.2.2.2.1, hinv.2.2.2.2,
      hinv.1, hinv.2.1⟩

/-- Two-definition registry used to instantiate registry theorems. -/
def demoDefs2 : List (NamedCommandParser Nat) :=
  [{ name := "quit", shorthand := some "q",
     description := { purpose := "Exits the program.", usage := "", examples := [] },
     parse := fun s => .ok (rustLen s) },
   { name := "ec", shorthand := some "e",
     description := { purpose := "Echoes.", usage := "", examples := [] },
     parse := fun s => .ok (rustLen s) }]

/-- The registry built from `demoDefs2` by `try_from`. -/
def demoCmdr2 : Commander Nat :=
  ⟨demoDefs2, [("q", 0), ("e", 1)], [("quit", 0), ("ec", 1)]⟩

theorem commander_tryFrom_dispatch_invariants_w :
    Commander.tryFrom demoDefs2 = .ok demoCmdr2 ∧
    (demoCmdr2.parsers = demoDefs2 ∧
      (∀ k, ¬(k ∈ mkeys demoCmdr2.byShorthand ∧ k ∈ mkeys demoCmdr2.byName)) ∧
      (mkeys demoCmdr2.byShorthand).Nodup ∧ (mkeys demoCmdr2.byName).Nodup ∧
      (∀ k i, (k, i) ∈ demoCmdr2.byShorthand →
        ∃ d, demoDefs2.get? i = some d ∧ d.shorthand = some k) ∧
      (∀ k i, (k, i) ∈ demoCmdr2.byName →
        ∃ d, demoDefs2.get? i = some d ∧ d.name = k)) :=
  ⟨rfl, commander_tryFrom_dispatch_invariants Nat demoDefs2 demoCmdr2 rfl⟩

/-- C10: `Commander::new` delegates to `try_from` and unwraps: it returns
the same registry whenever `try_from` succeeds; when `try_from` reports a
construction error, `new` never returns it as a value (the Rust panic is
modelled as `none`). -/
theorem commander_new_refines_tryFrom (α : Type)
    (defs : List (NamedCommandParser α)) :
    (∀ c, Commander.tryFrom defs = .ok c → Commander.new defs = some c) ∧
    (∀ e, Commander.tryFrom defs = .error e → Commander.new defs = none) := by
  constructor
  · intro c h
    simp [Commander.new, h, Except.toOption]
  · intro e h
    simp [Commander.new, h, Except.toOption]

theorem commander_new_refines_tryFrom_w :
    Commander.tryFrom demoDefs2 = .ok demoCmdr2 ∧
    Commander.new demoDefs2 = some demoCmdr2 :=
  ⟨rfl, (commander_new_refines_tryFrom Nat demoDefs2).1 demoCmdr2 rfl⟩

theorem string_data_inj (a b : String) (h : a.data = b.data) : a = b := by
  cases a
  cases b
  exact congrArg String.mk h

theorem duplicateError_head (k : String) :
    (duplicateError k).data.head? = some 'd' := by
  rw [duplicateError, string_data_append, string_data_append]
  rfl

theorem invalidNameMsg_head (nm : String) :
    (invalidNameMsg nm).data.head? = some 'i' := by
  rw [invalidNameMsg, string_data_append, string_data_append]
  rfl

theorem unparsableExampleMsg_head (c e : String) :
    (unparsableExampleMsg c e).data.head? = some 'u' := by
  rw [unparsableExampleMsg, string_data_append, string_data_append,
    string_data_append]
  rfl

theorem invalidNameMsg_inj (a b : String) (h : invalidNameMsg a = invalidNameMsg b) :
    a = b := by
  have hd := congrArg String.data h
  rw [invalidNameMsg, invalidNameMsg, string_data_append, string_data_append,
    string_data_append, string_data_append] at hd
  have h1 := List.append_cancel_right hd
  have h2 := List.append_cancel_left h1
  exact string_data_inj a b h2

theorem assertExamples_error_head {α : Type} (p : NamedCommandParser α) :
    ∀ (exs : List CmdExample) (e : String), assertExamples p exs = .error e →
      e.data.head? = some 'u' := by
  intro exs
  induction exs with
  | nil =>
    intro e h
    simp only [assertExamples] at h
    exact Except.noConfusion h
  | cons ex rest ih =>
    intro e h
    cases hp : p.parse ex.command with
    | ok a =>
      simp only [assertExamples, hp] at h
      exact ih e h
    | error err =>
      simp only [assertExamples, hp] at h
      have he : e = unparsableExampleMsg ex.command err := by
        injection h with h'
        exact h'.symm
      rw [he]
      exact unparsableExampleMsg_head ex.command err

theorem registerShorthand_error_shape {α : Type} (p : NamedCommandParser α)
    (i : Nat) (s n : DispatchMap) (e : String)
    (h : registerShorthand p i s n = .error e) : ∃ k, e = duplicateError k := by
  cases hsh : p.shorthand with
  | none =>
    simp only [registerShorthand, hsh] at h
    exact Except.noConfusion h
  | some sh =>
    simp only [registerShorthand, hsh] at h
    by_cases hc : mcontains n sh = true
    · rw [if_pos hc] at h
      exact ⟨sh, by injection h with h'; exact h'.symm⟩
    · rw [if_neg hc] at h
      unfold minsert at h
      by_cases hc2 : mcontains s sh = true
      · rw [if_pos hc2] at h
        exact ⟨sh, by injection h with h'; exact h'.symm⟩
      · rw [if_neg hc2] at h
        exact Except.noConfusion h

theorem registerName_error_shape {α : Type} (p : NamedCommandParser α)
    (i : Nat) (s n : DispatchMap) (e : String)
    (h : registerName p i s n = .error e) :
    (e = invalidNameMsg p.name ∧ rustLen p.name < 2) ∨ e = duplicateError p.name := by
  unfold registerName at h
  by_cases hlen : rustLen p.name < 2
  · rw [if_pos hlen] at h
    exact Or.inl ⟨by injection h with h'; exact h'.symm, hlen⟩
  · rw [if_neg hlen] at h
    by_cases hc : mcontains s p.name = true
    · rw [if_pos hc] at h
      exact Or.inr (by injection h with h'; exact h'.symm)
    · rw [if_neg hc] at h
      unfold minsert at h
      by_cases hc2 : mcontains n p.name = true
      · rw [if_pos hc2] at h
        exact Or.inr (by injection h with h'; exact h'.symm)
      · rw [if_neg hc2] at h
        exact Except.noConfusion h

theorem registerOne_error_shape {α : Type} (p : NamedCommandParser α)
    (i : Nat) (s n : DispatchMap) (e : String)
    (h : registerOne p i s n = .error e) :
    e.data.head? = some 'u' ∨ (∃ k, e = duplicateError k) ∨
      (e = invalidNameMsg p.name ∧ rustLen p.name < 2) := by
  cases hex : assertExamples p p.description.examples with
  | error e' =>
    simp only [registerOne, hex] at h
    have he : e = e' := by injection h with h'; exact h'.symm
    exact Or.inl (he ▸ assertExamples_error_head p p.description.examples e' hex)
  | ok u =>
    cases hsh : registerShorthand p i s n with
    | error e' =>
      simp only [registerOne, hex, hsh] at h
      have he : e = e' := by injection h with h'; exact h'.symm
      exact Or.inr (Or.inl (he ▸ registerShorthand_error_shape p i s n e' hsh))
    | ok s₁ =>
      cases hnm : registerName p i s₁ n with
      | error e' =>
        simp only [registerOne, hex, hsh, hnm] at h
        have he : e = e' := by injection h with h'; exact h'.symm
        rcases registerName_error_shape p i s₁ n e' hnm with h1 | h1
        · exact Or.inr (Or.inr (he ▸ h1))
        · exact Or.inr (Or.inl ⟨p.name, he ▸ h1⟩)
      | ok n₁ =>
        simp only [registerOne, hex, hsh, hnm] at h
        exact Except.noConfusion h

theorem tryFromGo_append {α : Type} (xs ys : List (NamedCommandParser α)) :
    ∀ (i : Nat) (s n : DispatchMap),
      tryFromGo (xs ++ ys) i s n =
        match tryFromGo xs i s n with
        | .error e => .error e
        | .ok (s', n') => tryFromGo ys (i + xs.length) s' n' := by
  induction xs with
  | nil =>
    intro i s n
    simp [tryFromGo]
  | cons p xs ih =>
    intro i s n
    cases hone : registerOne p i s n with
    | error e =>
      simp [tryFromGo, hone]
    | ok pair =>
      obtain ⟨s₁, n₁⟩ := pair
      have harith : i + 1 + xs.length = i + (xs.length + 1) := by omega
      simp only [List.cons_append, tryFromGo, hone, List.length_cons]
      have hxs : xs.append ys = xs ++ ys := rfl
      rw [hxs, ih (i + 1) s₁ n₁, harith]

theorem tryFromGo_error_invalid {α : Type} (rest : List (NamedCommandParser α)) :
    ∀ (i : Nat) (s n : DispatchMap) (nm : String),
      tryFromGo rest i s n = .error (invalidNameMsg nm) →
      rustLen nm < 2 ∧ ∃ d ∈ rest, d.name = nm := by
  induction rest with
  | nil =>
    intro i s n nm h
    simp only [tryFromGo] at h
    exact Except.noConfusion h
  | cons p rst ih =>
    intro i s n nm h
    cases hone : registerOne p i s n with
    | error e =>
      simp only [tryFromGo, hone] at h
      have he : e = invalidNameMsg nm := by injection h with h'
      rcases registerOne_error_shape p i s n e hone with h1 | h1 | h1
      · rw [he, invalidNameMsg_head] at h1
        exact absurd h1 (by decide)
      · obtain ⟨k, hk⟩ := h1
        rw [hk] at he
        have := congrArg (fun t => t.data.head?) he
        simp only [duplicateError_head, invalidNameMsg_head] at this
        exact absurd this (by decide)
      · have hnm : p.name = nm := invalidNameMsg_inj p.name nm (h1.1 ▸ he)
        exact ⟨hnm ▸ h1.2, p, List.mem_cons_self p rst, hnm⟩
    | ok pair =>
      obtain ⟨s₁, n₁⟩ := pair
      simp only [tryFromGo, hone] at h
      obtain ⟨hlt, d, hd, hdn⟩ := ih (i + 1) s₁ n₁ nm h
      exact ⟨hlt, d, List.mem_cons_of_mem p hd, hdn⟩

theorem tryFromGo_ok_names {α : Type} (rest : List (NamedCommandParser α)) :
    ∀ (i : Nat) (s n s' n' : DispatchMap),
      tryFromGo rest i s n = .ok (s', n') →
      ∀ d ∈ rest, ¬ rustLen d.name < 2 := by
  induction rest with
  | nil =>
    intro i s n s' n' _ d hd
    exact absurd hd (List.not_mem_nil d)
  | cons p rst ih =>
    intro i s n s' n' h d hd
    cases hone : registerOne p i s n with
    | error e =>
      simp only [tryFromGo, hone] at h
      exact Except.noConfusion h
    | ok pair =>
      obtain ⟨s₁, n₁⟩ := pair
      simp only [tryFromGo, hone] at h
      rcases List.mem_cons.mp hd with rfl | hd
      · exact (registerOne_ok _ i s n s₁ n₁ hone).2.1
      · exact ih (i + 1) s₁ n₁ s' n' h d hd

/-- The name and the optional shorthand a definition claims in the
dispatch table. -/
def keysOf (d : NamedCommandParser α) : List String :=
  d.name :: d.shorthand.toList

/-- All keys claimed by a list of definitions, in registration order. -/
def allKeys : List (NamedCommandParser α) → List String
  | [] => []
  | d :: rest => keysOf d ++ allKeys rest

/-- All example commands of a definition parse successfully. -/
def examplesOk (p : NamedCommandParser α) : Prop :=
  assertExamples p p.description.examples = .ok ()

/-- The shorthand entries contributed by one definition. -/
def shEntriesOf (p : NamedCommandParser α) (i : Nat) : DispatchMap :=
  match p.shorthand with
  | none => []
  | some sh => [(sh, i)]

theorem registerOne_fresh {α : Type} (p : NamedCommandParser α) (i : Nat)
    (s n : DispatchMap) (hex : examplesOk p) (hnodup : (keysOf p).Nodup)
    (hfs : ∀ k ∈ keysOf p, k ∉ mkeys s) (hfn : ∀ k ∈ keysOf p, k ∉ mkeys n)
    (hlen : ¬ rustLen p.name < 2) :
    registerOne p i s n = .ok (s ++ shEntriesOf p i, n ++ [(p.name, i)]) := by
  have hnamek : p.name ∈ keysOf p := by simp [keysOf]
  have hsh : registerShorthand p i s n = .ok (s ++ shEntriesOf p i) := by
    cases hso : p.shorthand with
    | none => simp [registerShorthand, hso, shEntriesOf]
    | some sh =>
      have hshk : sh ∈ keysOf p := by simp [keysOf, hso]
      have hc1 : mcontains n sh = false :=
        (mcontains_false_iff n sh).mpr (hfn sh hshk)
      have hc2 : mcontains s sh = false :=
        (mcontains_false_iff s sh).mpr (hfs sh hshk)
      simp [registerShorthand, hso, hc1, minsert, hc2, shEntriesOf]
  have hkeys : mkeys (s ++ shEntriesOf p i) = mkeys s ++ mkeys (shEntriesOf p i) := by
    simp [mkeys]
  have hnm : registerName p i (s ++ shEntriesOf p i) n = .ok (n ++ [(p.name, i)]) := by
    have hc3 : mcontains (s ++ shEntriesOf p i) p.name = false := by
      rw [mcontains_false_iff, hkeys]
      intro hmem
      rcases List.mem_append.mp hmem with hmem | hmem
      · exact hfs p.name hnamek hmem
      · cases hso : p.shorthand with
        | none => rw [shEntriesOf, hso] at hmem; exact absurd hmem (by simp [mkeys])
        | some sh =>
          rw [shEntriesOf, hso] at hmem
          simp only [mkeys, List.map_cons, List.map_nil, List.mem_singleton] at hmem
          have : (keysOf p).Nodup := hnodup
          rw [keysOf, hso] at this
          simp only [Option.toList_some, List.nodup_cons, List.mem_singleton] at this
          exact this.1 hmem
    have hc4 : mcontains n p.name = false :=
      (mcontains_false_iff n p.name).mpr (hfn p.name hnamek)
    simp [registerName, hlen, hc3, minsert, hc4]
  simp [registerOne, hex, examplesOk] at hex ⊢
  simp [hex, hsh, hnm]

theorem registerOne_short {α : Type} (p : NamedCommandParser α) (i : Nat)
    (s n : DispatchMap) (hex : examplesOk p)
    (hfs : ∀ k ∈ keysOf p, k ∉ mkeys s) (hfn : ∀ k ∈ keysOf p, k ∉ mkeys n)
    (hlen : rustLen p.name < 2) :
    registerOne p i s n = .error (invalidNameMsg p.name) := by
  have hsh : registerShorthand p i s n = .ok (s ++ shEntriesOf p i) := by
    cases hso : p.shorthand with
    | none => simp [registerShorthand, hso, shEntriesOf]
    | some sh =>
      have hshk : sh ∈ keysOf p := by simp [keysOf, hso]
      have hc1 : mcontains n sh = false :=
        (mcontains_false_iff n sh).mpr (hfn sh hshk)
      have hc2 : mcontains s sh = false :=
        (mcontains_false_iff s sh).mpr (hfs sh hshk)
      simp [registerShorthand, hso, hc1, minsert, hc2, shEntriesOf]
  have hnm : registerName p i (s ++ shEntriesOf p i) n = .error (invalidNameMsg p.name) := by
    simp [registerName, hlen]
  simp [examplesOk] at hex
  simp [registerOne, hex, hsh, hnm]

theorem tryFromGo_short_name_error {α : Type} (rest : List (NamedCommandParser α)) :
    ∀ (i : Nat) (s n : DispatchMap),
      (∀ d ∈ rest, examplesOk d) →
      (allKeys rest).Nodup →
      (∀ k ∈ allKeys rest, k ∉ mkeys s) →
      (∀ k ∈ allKeys rest, k ∉ mkeys n) →
      (∃ d ∈ rest, rustLen d.name < 2) →
      ∃ nm, rustLen nm < 2 ∧ tryFromGo rest i s n = .error (invalidNameMsg nm) := by
  induction rest with
  | nil =>
    intro i s n _ _ _ _ hshort
    obtain ⟨d, hd, _⟩ := hshort
    exact absurd hd (List.not_mem_nil d)
  | cons p rst ih =>
    intro i s n hexs hnodup hfs hfn hshort
    have hall : allKeys (p :: rst) = keysOf p ++ allKeys rst := rfl
    rw [hall] at hnodup hfs hfn
    have hnod := List.nodup_append.mp hnodup
    by_cases hlen : rustLen p.name < 2
    · refine ⟨p.name, hlen, ?_⟩
      have hro := registerOne_short p i s n (hexs p (by simp))
        (fun k hk => hfs k (List.mem_append.mpr (Or.inl hk)))
        (fun k hk => hfn k (List.mem_append.mpr (Or.inl hk))) hlen
      simp [tryFromGo, hro]
    · have hro := registerOne_fresh p i s n (hexs p (by simp)) hnod.1
        (fun k hk => hfs k (List.mem_append.mpr (Or.inl hk)))
        (fun k hk => hfn k (List.mem_append.mpr (Or.inl hk))) hlen
      have hshort' : ∃ d ∈ rst, rustLen d.name < 2 := by
        obtain ⟨d, hd, hds⟩ := hshort
        rcases List.mem_cons.mp hd with rfl | hd
        · exact absurd hds hlen
        · exact ⟨d, hd, hds⟩
      have hfs' : ∀ k ∈ allKeys rst, k ∉ mkeys (s ++ shEntriesOf p i) := by
        intro k hk hmem
        have hmk : mkeys (s ++ shEntriesOf p i) = mkeys s ++ mkeys (shEntriesOf p i) := by
          simp [mkeys]
        rw [hmk] at hmem
        rcases List.mem_append.mp hmem with hmem | hmem
        · exact hfs k (List.mem_append.mpr (Or.inr hk)) hmem
        · have hk2 : k ∈ keysOf p := by
            cases hso : p.shorthand with
            | none =>
              rw [shEntriesOf, hso] at hmem
              exact absurd hmem (by simp [mkeys])
            | some sh =>
              rw [shEntriesOf, hso] at hmem
              simp only [mkeys, List.map_cons, List.map_nil,
                List.mem_singleton] at hmem
              simp [keysOf, hso, hmem]
          exact hnod.2.2 hk2 hk
      have hfn' : ∀ k ∈ allKeys rst, k ∉ mkeys (n ++ [(p.name, i)]) := by
        intro k hk hmem
        rw [mkeys_append_single] at hmem
        rcases List.mem_append.mp hmem with hmem | hmem
        · exact hfn k (List.mem_append.mpr (Or.inr hk)) hmem
        · simp only [List.mem_singleton] at hmem
          have hk2 : k ∈ keysOf p := by simp [keysOf, hmem]
          exact hnod.2.2 hk2 hk
      obtain ⟨nm, h1, h2⟩ := ih (i + 1) (s ++ shEntriesOf p i) (n ++ [(p.name, i)])
        (fun d hd => hexs d (List.mem_cons_of_mem p hd)) hnod.2.1 hfs' hfn' hshort'
      exact ⟨nm, h1, by simp [tryFromGo, hro, h2]⟩

/-- C5, amended: the length check is on UTF-8 bytes, not characters.
Construction never succeeds while registering a name of fewer than 2
bytes; the invalid-name message is raised only for such a name; and when
all examples parse and keys are conflict-free, the presence of a
definition whose name has fewer than 2 bytes forces exactly that
failure. -/
theorem invalid_name_construction (α : Type) (defs : List (NamedCommandParser α)) :
    (∀ c, Commander.tryFrom defs = .ok c → ∀ d ∈ defs, 2 ≤ rustLen d.name) ∧
    (∀ nm, Commander.tryFrom defs = .error (invalidNameMsg nm) →
      rustLen nm < 2 ∧ ∃ d ∈ defs, d.name = nm) ∧
    ((∀ d ∈ defs, examplesOk d) → (allKeys defs).Nodup →
      (∃ d ∈ defs, rustLen d.name < 2) →
      ∃ nm, rustLen nm < 2 ∧ Commander.tryFrom defs = .error (invalidNameMsg nm)) := by
  refine ⟨?_, ?_, ?_⟩
  · intro c h d hd
    cases htg : tryFromGo defs 0 [] [] with
    | error e =>
      simp only [Commander.tryFrom, htg] at h
      exact Except.noConfusion h
    | ok pair =>
      obtain ⟨s, n⟩ := pair
      exact Nat.le_of_not_lt (tryFromGo_ok_names defs 0 [] [] s n htg d hd)
  · intro nm h
    cases htg : tryFromGo defs 0 [] [] with
    | error e =>
      simp only [Commander.tryFrom, htg] at h
      have he : e = invalidNameMsg nm := by injection h
      exact tryFromGo_error_invalid defs 0 [] [] nm (he ▸ htg)
    | ok pair =>
      obtain ⟨s, n⟩ := pair
      simp only [Commander.tryFrom, htg] at h
      exact Except.noConfusion h
  · intro h1 h2 h3
    obtain ⟨nm, hn1, hn2⟩ := tryFromGo_short_name_error defs 0 [] [] h1 h2
      (fun k _ => by simp [mkeys]) (fun k _ => by simp [mkeys]) h3
    exact ⟨nm, hn1, by simp [Commander.tryFrom, hn2]⟩

/-- A definition whose name is one character but two UTF-8 bytes. -/
def accentDef : NamedCommandParser Nat :=
  { name := "é", shorthand := none,
    description := { purpose := "Does things.", usage := "", examples := [] },
    parse := fun _ => .ok 0 }

/-- Counterexample to C5 as stated: the code checks `name().len() >= 2`
on bytes, so construction succeeds while registering the one-character
name `é` (2 UTF-8 bytes). -/
theorem short_name_chars_cex :
    (Commander.tryFrom [accentDef]).map (fun _ => ()) = .ok () ∧
    accentDef.name.length = 1 ∧ rustLen accentDef.name = 2 :=
  ⟨rfl, rfl, rfl⟩

/-- A definition with a one-byte name. -/
def shortDef : NamedCommandParser Nat :=
  { name := "h", shorthand := none,
    description := { purpose := "Helps.", usage := "", examples := [] },
    parse := fun _ => .ok 0 }

theorem invalid_name_construction_w :
    (∀ d ∈ [shortDef], examplesOk d) ∧ (allKeys [shortDef]).Nodup ∧
    (∃ d ∈ [shortDef], rustLen d.name < 2) ∧
    (∃ nm, rustLen nm < 2 ∧
      Commander.tryFrom [shortDef] = .error (invalidNameMsg nm)) := by
  have h1 : ∀ d ∈ [shortDef], examplesOk d := by
    intro d hd
    simp only [List.mem_singleton] at hd
    subst hd
    rfl
  have h2 : (allKeys [shortDef] : List String).Nodup := by decide
  have h3 : ∃ d ∈ [shortDef], rustLen d.name < 2 :=
    ⟨shortDef, by simp, by decide⟩
  exact ⟨h1, h2, h3, (invalid_name_construction Nat [shortDef]).2.2 h1 h2 h3⟩

/-- C7, amended: once the earlier definitions have registered cleanly and
the offending definition's examples parse, a shorthand colliding with an
already-registered name or shorthand fails construction with the
duplicate-key message, and so does a name of at least 2 bytes colliding
with an already-registered shorthand (its own included) or name; the
`Except` result of construction carries only the error, so the partially
built table is discarded (all-or-nothing). -/
theorem duplicate_key_construction (α : Type)
    (pre post : List (NamedCommandParser α)) (d : NamedCommandParser α)
    (s n : DispatchMap) (hpre : tryFromGo pre 0 [] [] = .ok (s, n))
    (hex : examplesOk d) :
    (∀ sh, d.shorthand = some sh → sh ∈ mkeys n ∨ sh ∈ mkeys s →
      Commander.tryFrom (pre ++ d :: post) = .error (duplicateError sh)) ∧
    ((d.shorthand = none ∨
        ∃ sh, d.shorthand = some sh ∧ sh ∉ mkeys n ∧ sh ∉ mkeys s) →
      ¬ rustLen d.name < 2 →
      (d.name ∈ mkeys s ∨ d.name ∈ mkeys n ∨ d.shorthand = some d.name) →
      Commander.tryFrom (pre ++ d :: post) = .error (duplicateError d.name)) := by
  have hexeq : assertExamples d d.description.examples = .ok () := hex
  have hbridge : ∀ e, registerOne d (pre.length) s n = .error e →
      Commander.tryFrom (pre ++ d :: post) = .error e := by
    intro e he
    have happ : tryFromGo (pre ++ d :: post) 0 [] [] =
        tryFromGo (d :: post) (pre.length) s n := by
      rw [tryFromGo_append pre (d :: post) 0 [] [], hpre]
      show tryFromGo (d :: post) (0 + pre.length) s n =
        tryFromGo (d :: post) pre.length s n
      rw [Nat.zero_add]
    have herr : tryFromGo (pre ++ d :: post) 0 [] [] = .error e := by
      rw [happ]
      simp [tryFromGo, he]
    simp [Commander.tryFrom, herr]
  constructor
  · intro sh hsho hmem
    apply hbridge
    have hsherr : registerShorthand d (pre.length) s n =
        .error (duplicateError sh) := by
      cases hc : mcontains n sh with
      | true => simp [registerShorthand, hsho, hc]
      | false =>
        have hins : sh ∈ mkeys s := by
          rcases hmem with hmem | hmem
          · exact absurd hmem ((mcontains_false_iff n sh).mp hc)
          · exact hmem
        have hc2 : mcontains s sh = true := (mcontains_iff s sh).mpr hins
        simp [registerShorthand, hsho, hc, minsert, hc2]
    simp [registerOne, hexeq, hsherr]
  · intro hopt hlen hname
    apply hbridge
    rcases hopt with hnone | ⟨sh, hsho, hn1, hn2⟩
    · have hsherr : registerShorthand d (pre.length) s n = .ok s := by
        simp [registerShorthand, hnone]
      have hnmerr : registerName d (pre.length) s n =
          .error (duplicateError d.name) := by
        cases hc : mcontains s d.name with
        | true => simp [registerName, hlen, hc]
        | false =>
          have hinn : d.name ∈ mkeys n := by
            rcases hname with hm | hm | hm
            · exact absurd hm ((mcontains_false_iff s d.name).mp hc)
            · exact hm
            · rw [hnone] at hm
              exact Option.noConfusion hm
          have hc2 : mcontains n d.name = true := (mcontains_iff n d.name).mpr hinn
          simp [registerName, hlen, hc, minsert, hc2]
      simp [registerOne, hexeq, hsherr, hnmerr]
    · have hc1 : mcontains n sh = false := (mcontains_false_iff n sh).mpr hn1
      have hc2 : mcontains s sh = false := (mcontains_false_iff s sh).mpr hn2
      have hsherr : registerShorthand d (pre.length) s n =
          .ok (s ++ [(sh, pre.length)]) := by
        simp [registerShorthand, hsho, hc1, minsert, hc2]
      have hkeys : mkeys (s ++ [(sh, pre.length)]) = mkeys s ++ [sh] :=
        mkeys_append_single s sh (pre.length)
      have hnmerr : registerName d (pre.length) (s ++ [(sh, pre.length)]) n =
          .error (duplicateError d.name) := by
        cases hc : mcontains (s ++ [(sh, pre.length)]) d.name with
        | true => simp [registerName, hlen, hc]
        | false =>
          have hns : d.name ∉ mkeys (s ++ [(sh, pre.length)]) :=
            (mcontains_false_iff _ d.name).mp hc
          rw [hkeys] at hns
          have hinn : d.name ∈ mkeys n := by
            rcases hname with hm | hm | hm
            · exact absurd (List.mem_append.mpr (Or.inl hm)) hns
            · exact hm
            · rw [hsho] at hm
              have hm' : sh = d.name := Option.some.inj hm
              exact absurd (List.mem_append.mpr (Or.inr (by simp [hm']))) hns
          have hc3 : mcontains n d.name = true := (mcontains_iff n d.name).mpr hinn
          simp [registerName, hlen, hc, minsert, hc3]
      simp [registerOne, hexeq, hsherr, hnmerr]

/-- A definition whose shorthand `b` collides with a later short name. -/
def dupA : NamedCommandParser Nat :=
  { name := "ab", shorthand := some "b",
    description := { purpose := "Adds.", usage := "", examples := [] },
    parse := fun _ => .ok 0 }

/-- A definition whose (too short) name `b` equals `dupA`'s registered
shorthand. -/
def dupB : NamedCommandParser Nat :=
  { name := "b", shorthand := none,
    description := { purpose := "Bails.", usage := "", examples := [] },
    parse := fun _ => .ok 0 }

/-- Counterexample to C7 as stated: `dupB`'s name equals the
already-registered shorthand `b`, yet construction fails with the
invalid-name message (the length check precedes the duplicate check),
not the duplicate-key message. -/
theorem duplicate_preempted_cex :
    dupA.shorthand = some "b" ∧ dupB.name = "b" ∧
    Commander.tryFrom [dupA, dupB] = .error (invalidNameMsg "b") ∧
    invalidNameMsg "b" ≠ duplicateError "b" :=
  ⟨rfl, rfl, rfl, by decide⟩

/-- The `quit` definition used as an already-registered first parser. -/
def qDef : NamedCommandParser Nat :=
  { name := "quit", shorthand := some "q",
    description := { purpose := "Exits the program.", usage := "", examples := [] },
    parse := fun _ => .ok 0 }

/-- A definition whose shorthand collides with `qDef`'s shorthand. -/
def gDef : NamedCommandParser Nat :=
  { name := "gg", shorthand := some "q",
    description := { purpose := "Goes.", usage := "", examples := [] },
    parse := fun _ => .ok 0 }

theorem duplicate_key_construction_w :
    tryFromGo [qDef] 0 [] [] = .ok ([("q", 0)], [("quit", 0)]) ∧
    examplesOk gDef ∧ gDef.shorthand = some "q" ∧
    ("q" ∈ mkeys [("quit", 0)] ∨ "q" ∈ mkeys [("q", 0)]) ∧
    Commander.tryFrom ([qDef] ++ gDef :: []) = .error (duplicateError "q") := by
  have h1 : tryFromGo [qDef] 0 [] [] = .ok ([("q", 0)], [("quit", 0)]) := rfl
  have h2 : examplesOk gDef := rfl
  have h4 : "q" ∈ mkeys [("quit", 0)] ∨ "q" ∈ mkeys [("q", 0)] := by
    right
    decide
  exact ⟨h1, h2, rfl, h4,
    (duplicate_key_construction Nat [qDef] [] gDef [("q", 0)] [("quit", 0)] h1 h2).1
      "q" rfl h4⟩

/-- C6, amended: `parse ""` always fails with `empty command string`;
any non-empty input whose identifier is registered in neither map fails
with `no command parser for '<identifier>'`; and `parse " "` fails with
`no command parser for ''` provided the empty string is not itself a
registered key (an empty shorthand is accepted by construction and would
capture the lookup instead). -/
theorem parse_error_messages (α : Type) (c : Commander α) :
    Commander.parse c "" = .error "empty command string" ∧
    (∀ s : String, s.data ≠ [] → mget c.byShorthand (identOf s) = none →
      mget c.byName (identOf s) = none →
      Commander.parse c s =
        .error ("no command parser for '" ++ identOf s ++ "'")) ∧
    (mget c.byShorthand "" = none → mget c.byName "" = none →
      Commander.parse c " " = .error "no command parser for ''") := by
  have hmain : ∀ s : String, s.data ≠ [] → mget c.byShorthand (identOf s) = none →
      mget c.byName (identOf s) = none →
      Commander.parse c s =
        .error ("no command parser for '" ++ identOf s ++ "'") := by
    intro s hs h1 h2
    rw [parse_eq_specDispatch c s hs]
    simp [specDispatch, h1, h2]
  refine ⟨rfl, hmain, ?_⟩
  intro h1 h2
  have hid : identOf " " = "" := rfl
  have hres := hmain " " (by decide) (by rw [hid]; exact h1) (by rw [hid]; exact h2)
  rw [hid] at hres
  have hstr : ("no command parser for '" ++ "" ++ "'" : String) =
      "no command parser for ''" := rfl
  rw [hstr] at hres
  exact hres

theorem parse_error_messages_w :
    ("zzz" : String).data ≠ [] ∧
    mget demoCmdr2.byShorthand (identOf "zzz") = none ∧
    mget demoCmdr2.byName (identOf "zzz") = none ∧
    Commander.parse demoCmdr2 "zzz" =
      .error ("no command parser for '" ++ identOf "zzz" ++ "'") :=
  ⟨by decide, rfl, rfl,
    (parse_error_messages Nat demoCmdr2).2.1 "zzz" (by decide) rfl rfl⟩

/-- A definition carrying the (legal) empty-string shorthand. -/
def emptyShDef : NamedCommandParser Nat :=
  { name := "ee", shorthand := some "",
    description := { purpose := "Echoes empties.", usage := "", examples := [] },
    parse := fun _ => .ok 7 }

/-- Counterexample to C6 as stated: construction accepts an empty-string
shorthand, and on that registry `parse " "` resolves through it and
succeeds instead of failing with `no command parser for ''`. -/
theorem parse_space_empty_shorthand_cex :
    (Commander.tryFrom [emptyShDef]).map (fun c => Commander.parse c " ") =
      .ok (.ok 7) ∧
    (Except.ok 7 : Except String Nat) ≠ .error "no command parser for ''" :=
  ⟨rfl, by simp⟩

/-- The lints of `command/lint.rs`. -/
inductive Lint where
  | purposeHasExcessWhitespace
  | purposeIsEmpty
  | purposeDoesNotBeginWithUppercase
  | purposeDoesNotEndWithPeriod
  | usageHasExcessWhitespace
  | usageBeginsWithCommandName
  | exampleScenarioHasExcessWhitespace
  | exampleScenarioIsEmpty
  | exampleScenarioBeginsWithUppercase
  | exampleScenarioEndsWithPeriod
  | exampleCommandHasExcessWhitespace
  | exampleCommandIsEmpty
  | exampleCommandBeginsWithCommandName
deriving DecidableEq

/-- `Lint::assert`: the lint is recorded exactly when the condition is
false (rendered as the list appended at that program point). -/
def lintUnless (cond : Bool) (l : Lint) : List Lint :=
  if cond then [] else [l]

/-- The `no_excess_whitespace` helper: `s.trim() == s`. -/
def noExcessWhitespace (s : String) (l : Lint) : List Lint :=
  lintUnless (rustTrim s == s) l

/-- The purpose block of `validate_description`, in source order: excess
whitespace, emptiness, first character uppercase, last character `.`
(the latter two only when the purpose is non-empty).  Emptiness is Rust
`str::is_empty`, i.e. zero bytes, i.e. no characters. -/
def validatePurpose (purpose : String) : List Lint :=
  noExcessWhitespace purpose .purposeHasExcessWhitespace ++
  (if purpose.data.isEmpty then [Lint.purposeIsEmpty]
   else
     lintUnless (purpose.data.headD ' ').isUpper .purposeDoesNotBeginWithUppercase ++
     lintUnless ((purpose.data.getLastD ' ') == '.') .purposeDoesNotEndWithPeriod)

/-- The usage block of `validate_description`: excess whitespace, and —
only for a non-empty usage — the requirement that it not start with the
command's own name. -/
def validateUsage (commandName usage : String) : List Lint :=
  noExcessWhitespace usage .usageHasExcessWhitespace ++
  (if usage.data.isEmpty then []
   else lintUnless (!(rustStartsWith usage commandName)) .usageBeginsWithCommandName)

/-- `validate_example` of `command/lint.rs`. -/
def validateExample (commandName : String) (ex : CmdExample) : List Lint :=
  noExcessWhitespace ex.scenario .exampleScenarioHasExcessWhitespace ++
  (if ex.scenario.data.isEmpty then [Lint.exampleScenarioIsEmpty]
   else
     lintUnless (!(ex.scenario.data.headD ' ').isUpper)
       .exampleScenarioBeginsWithUppercase ++
     lintUnless (!((ex.scenario.data.getLastD ' ') == '.'))
       .exampleScenarioEndsWithPeriod) ++
  (noExcessWhitespace ex.command .exampleCommandHasExcessWhitespace ++
   (if ex.command.data.isEmpty then [Lint.exampleCommandIsEmpty]
    else lintUnless (!(rustStartsWith ex.command commandName))
      .exampleCommandBeginsWithCommandName))

/-- The example loop of `validate_description`. -/
def validateExamples (commandName : String) : List CmdExample → List Lint
  | [] => []
  | ex :: rest => validateExample commandName ex ++ validateExamples commandName rest

/-- `validate_description` of `command/lint.rs`: all violations collected
in program order. -/
def validateDescription (commandName : String) (desc : Description) : List Lint :=
  validatePurpose desc.purpose ++ validateUsage commandName desc.usage ++
    validateExamples commandName desc.examples

/-- `validate` of `command/lint.rs`, at the parser level. -/
def validate (p : NamedCommandParser α) : List Lint :=
  validateDescription p.name p.description

theorem mem_lintUnless (a l : Lint) (cond : Bool) :
    a ∈ lintUnless cond l ↔ cond = false ∧ a = l := by
  cases cond <;> simp [lintUnless]

theorem period_mem_validatePurpose (purpose : String) :
    Lint.purposeDoesNotEndWithPeriod ∈ validatePurpose purpose ↔
      purpose.data ≠ [] ∧ purpose.data.getLastD ' ' ≠ '.' := by
  cases hemp : purpose.data.isEmpty with
  | true =>
    have : purpose.data = [] := List.isEmpty_iff.mp hemp
    simp [validatePurpose, hemp, noExcessWhitespace, mem_lintUnless, this]
  | false =>
    have hne : purpose.data ≠ [] := by
      intro h
      rw [h] at hemp
      exact Bool.noConfusion hemp
    simp only [validatePurpose, hemp, Bool.false_eq_true, if_false,
      List.mem_append, noExcessWhitespace, mem_lintUnless]
    constructor
    · intro h
      rcases h with (h | h | h)
      · exact absurd h.2 (by decide)
      · exact absurd h.2 (by decide)
      · refine ⟨hne, ?_⟩
        have := h.1
        intro hdot
        rw [hdot] at this
        simp at this
    · intro ⟨_, hdot⟩
      right
      right
      refine ⟨?_, trivial⟩
      cases hb : (purpose.data.getLastD ' ' == '.') with
      | false => rfl
      | true => exact absurd (by simpa using hb) hdot

theorem usage_mem_validateUsage (commandName usage : String) :
    Lint.usageBeginsWithCommandName ∈ validateUsage commandName usage ↔
      usage.data ≠ [] ∧ rustStartsWith usage commandName = true := by
  cases hemp : usage.data.isEmpty with
  | true =>
    have : usage.data = [] := List.isEmpty_iff.mp hemp
    simp [validateUsage, hemp, noExcessWhitespace, mem_lintUnless, this]
  | false =>
    have hne : usage.data ≠ [] := by
      intro h
      rw [h] at hemp
      exact Bool.noConfusion hemp
    simp only [validateUsage, hemp, Bool.false_eq_true, if_false,
      List.mem_append, noExcessWhitespace, mem_lintUnless]
    constructor
    · intro h
      rcases h with (h | h)
      · exact absurd h.2 (by decide)
      · refine ⟨hne, ?_⟩
        have := h.1
        cases hb : rustStartsWith usage commandName with
        | true => rfl
        | false => rw [hb] at this; simp at this
    · intro ⟨_, hsw⟩
      right
      refine ⟨?_, trivial⟩
      rw [hsw]
      rfl

theorem period_usage_notin_validatePurpose (purpose : String) :
    Lint.usageBeginsWithCommandName ∉ validatePurpose purpose := by
  intro h
  rcases List.mem_append.mp h with h | h
  · exact absurd ((mem_lintUnless _ _ _).mp h).2 (by decide)
  · by_cases hemp : purpose.data.isEmpty = true
    · rw [if_pos hemp] at h
      simp at h
    · rw [if_neg hemp] at h
      rcases List.mem_append.mp h with h | h
      · exact absurd ((mem_lintUnless _ _ _).mp h).2 (by decide)
      · exact absurd ((mem_lintUnless _ _ _).mp h).2 (by decide)

theorem period_notin_validateUsage (commandName usage : String) :
    Lint.purposeDoesNotEndWithPeriod ∉ validateUsage commandName usage := by
  intro h
  rcases List.mem_append.mp h with h | h
  · exact absurd ((mem_lintUnless _ _ _).mp h).2 (by decide)
  · by_cases hemp : usage.data.isEmpty = true
    · rw [if_pos hemp] at h
      simp at h
    · rw [if_neg hemp] at h
      exact absurd ((mem_lintUnless _ _ _).mp h).2 (by decide)

theorem purpose_usage_notin_validateExample (commandName : String) (ex : CmdExample)
    (l : Lint)
    (hl : l = Lint.purposeDoesNotEndWithPeriod ∨ l = Lint.usageBeginsWithCommandName) :
    l ∉ validateExample commandName ex := by
  intro h
  rcases List.mem_append.mp h with h | h
  · rcases List.mem_append.mp h with h | h
    · have := ((mem_lintUnless _ _ _).mp h).2
      rcases hl with rfl | rfl <;> exact absurd this (by decide)
    · by_cases hemp : ex.scenario.data.isEmpty = true
      · rw [if_pos hemp] at h
        simp only [List.mem_singleton] at h
        rcases hl with rfl | rfl <;> exact absurd h (by decide)
      · rw [if_neg hemp] at h
        rcases List.mem_append.mp h with h | h <;>
          · have := ((mem_lintUnless _ _ _).mp h).2
            rcases hl with rfl | rfl <;> exact absurd this (by decide)
  · rcases List.mem_append.mp h with h | h
    · have := ((mem_lintUnless _ _ _).mp h).2
      rcases hl with rfl | rfl <;> exact absurd this (by decide)
    · by_cases hemp : ex.command.data.isEmpty = true
      · rw [if_pos hemp] at h
        simp only [List.mem_singleton] at h
        rcases hl with rfl | rfl <;> exact absurd h (by decide)
      · rw [if_neg hemp] at h
        have := ((mem_lintUnless _ _ _).mp h).2
        rcases hl with rfl | rfl <;> exact absurd this (by decide)

theorem purpose_usage_notin_validateExamples (commandName : String)
    (l : Lint)
    (hl : l = Lint.purposeDoesNotEndWithPeriod ∨ l = Lint.usageBeginsWithCommandName) :
    ∀ exs : List CmdExample, l ∉ validateExamples commandName exs := by
  intro exs
  induction exs with
  | nil => simp [validateExamples]
  | cons ex rest ih =>
    intro h
    rcases List.mem_append.mp h with h | h
    · exact purpose_usage_notin_validateExample commandName ex l hl h
    · exact ih h

/-- C8, amended: `validate` flags `PurposeDoesNotEndWithPeriod` exactly
when the purpose is non-empty and its raw (untrimmed) last character is
not `.`; it flags `UsageBeginsWithCommandName` exactly when the usage is
non-empty and starts with the command's own name. -/
theorem lint_period_usage_iff (commandName : String) (desc : Description) :
    (Lint.purposeDoesNotEndWithPeriod ∈ validateDescription commandName desc ↔
      (desc.purpose.data ≠ [] ∧ desc.purpose.data.getLastD ' ' ≠ '.')) ∧
    (Lint.usageBeginsWithCommandName ∈ validateDescription commandName desc ↔
      (desc.usage.data ≠ [] ∧ rustStartsWith desc.usage commandName = true)) := by
  constructor
  · rw [validateDescription, ← period_mem_validatePurpose desc.purpose]
    constructor
    · intro h
      rcases List.mem_append.mp h with h | h
      · rcases List.mem_append.mp h with h | h
        · exact h
        · exact absurd h (period_notin_validateUsage commandName desc.usage)
      · exact absurd h (purpose_usage_notin_validateExamples commandName _
          (Or.inl rfl) desc.examples)
    · intro h
      exact List.mem_append.mpr (Or.inl (List.mem_append.mpr (Or.inl h)))
  · rw [validateDescription, ← usage_mem_validateUsage commandName desc.usage]
    constructor
    · intro h
      rcases List.mem_append.mp h with h | h
      · rcases List.mem_append.mp h with h | h
        · exact absurd h (period_usage_notin_validatePurpose desc.purpose)
        · exact h
      · exact absurd h (purpose_usage_notin_validateExamples commandName _
          (Or.inr rfl) desc.examples)
    · intro h
      exact List.mem_append.mpr (Or.inl (List.mem_append.mpr (Or.inr h)))

/-- A description whose purpose ends in a period followed by a trailing
space. -/
def lintCexDesc : Description :=
  { purpose := "Hi. ", usage := "", examples := [] }

/-- Counterexample to C8 as stated: the code tests the raw last
character, not the trimmed one; with purpose `"Hi. "` the lint
`PurposeDoesNotEndWithPeriod` is raised although the trimmed purpose
does end with `.`. -/
theorem lint_period_trim_cex :
    Lint.purposeDoesNotEndWithPeriod ∈ validateDescription "xx" lintCexDesc ∧
    (rustTrim lintCexDesc.purpose).data ≠ [] ∧
    (rustTrim lintCexDesc.purpose).data.getLastD ' ' = '.' := by
  refine ⟨by decide, by decide, by decide⟩

deriving instance DecidableEq for Except

/-- The terminal capability of `terminal.rs`, modelled as the
repository's own mock (`terminal/mock.rs`): a finite script of
`read_line` results (exhaustion yields an access error, as in
`mock::lines`), a script of injected `print` results (exhaustion means
printing succeeds), and a transcript recording every print invocation's
argument. -/
structure Terminal where
  reads : List (Except String String)
  printResults : List (Option String)
  output : List String
deriving DecidableEq

/-- `Terminal::print`: consume the next injected result and record the
invocation. -/
def Terminal.print (t : Terminal) (s : String) : Except String Unit × Terminal :=
  match t.printResults with
  | [] => (.ok (), { t with output := t.output ++ [s] })
  | none :: rest => (.ok (), { t with printResults := rest, output := t.output ++ [s] })
  | some e :: rest => (.error e, { t with printResults := rest, output := t.output ++ [s] })

/-- `Terminal::print_line`: append a newline and print. -/
def Terminal.printLine (t : Terminal) (s : String) : Except String Unit × Terminal :=
  t.print (s ++ "\n")

/-- `Terminal::read_line`: consume the next scripted read result. -/
def Terminal.readLine (t : Terminal) : Except String String × Terminal :=
  match t.reads with
  | [] => (.error "no more lines", t)
  | r :: rest => (r, { t with reads := rest })

theorem print_output (t : Terminal) (s : String) :
    ((t.print s).2).output = t.output ++ [s] := by
  obtain ⟨reads, prs, out⟩ := t
  cases prs with
  | nil => rfl
  | cons a rest => cases a <;> rfl

theorem printLine_output (t : Terminal) (s : String) :
    ((t.printLine s).2).output = t.output ++ [s ++ "\n"] :=
  print_output t (s ++ "\n")

/-- `Terminal::read_value`: prompt, read, trim, parse; retry on a parse
failure after reporting it; return any terminal access failure at once.
The fuel bounds the number of attempts; `none` models the loop still
running (the Rust loop is unbounded). -/
def readValue {V ε : Type} (disp : ε → String) :
    Nat → Terminal → String → (String → Except ε V) →
      Option (Except String V × Terminal)
  | 0, _, _, _ => none
  | fuel + 1, t, prompt, parser =>
    match t.print prompt with
    | (.error e, t1) => some (.error e, t1)
    | (.ok _, t1) =>
      match t1.readLine with
      | (.error e, t2) => some (.error e, t2)
      | (.ok line, t2) =>
        match parser (rustTrim line) with
        | .ok v => some (.ok v, t2)
        | .error err =>
          match t2.printLine ("Invalid input: " ++ disp err ++ ".") with
          | (.error e, t3) => some (.error e, t3)
          | (.ok _, t3) => readValue disp fuel t3 prompt parser

/-- C9: `read_value` prints the prompt, reads a line, trims it and
applies the parser; a terminal failure from printing or reading is
returned immediately; the first successfully parsed value is returned;
a parse failure prints `Invalid input: <err>.` and retries, so the parse
error itself is never returned to the caller. -/
theorem read_value_retry_and_failure (V ε : Type) (disp : ε → String)
    (prompt : String) (parser : String → Except ε V) (fuel : Nat) (t : Terminal) :
    (∀ e t1, t.print prompt = (.error e, t1) →
      readValue disp (fuel + 1) t prompt parser = some (.error e, t1)) ∧
    (∀ t1 e t2, t.print prompt = (.ok (), t1) → t1.readLine = (.error e, t2) →
      readValue disp (fuel + 1) t prompt parser = some (.error e, t2)) ∧
    (∀ t1 line t2 v, t.print prompt = (.ok (), t1) → t1.readLine = (.ok line, t2) →
      parser (rustTrim line) = .ok v →
      readValue disp (fuel + 1) t prompt parser = some (.ok v, t2)) ∧
    (∀ t1 line t2 err t3, t.print prompt = (.ok (), t1) →
      t1.readLine = (.ok line, t2) → parser (rustTrim line) = .error err →
      t2.printLine ("Invalid input: " ++ disp err ++ ".") = (.ok (), t3) →
      readValue disp (fuel + 1) t prompt parser =
        readValue disp fuel t3 prompt parser ∧
      t3.output = t2.output ++ ["Invalid input: " ++ disp err ++ "." ++ "\n"]) ∧
    (∀ t1 line t2 err e t3, t.print prompt = (.ok (), t1) →
      t1.readLine = (.ok line, t2) → parser (rustTrim line) = .error err →
      t2.printLine ("Invalid input: " ++ disp err ++ ".") = (.error e, t3) →
      readValue disp (fuel + 1) t prompt parser = some (.error e, t3)) := by
  refine ⟨?_, ?_, ?_, ?_, ?_⟩
  · intro e t1 h1
    simp only [readValue, h1]
  · intro t1 e t2 h1 h2
    simp only [readValue, h1, h2]
  · intro t1 line t2 v h1 h2 h3
    simp only [readValue, h1, h2, h3]
  · intro t1 line t2 err t3 h1 h2 h3 h4
    constructor
    · simp only [readValue, h1, h2, h3, h4]
    · have hout := printLine_output t2 ("Invalid input: " ++ disp err ++ ".")
      rw [h4] at hout
      exact hout
  · intro t1 line t2 err e t3 h1 h2 h3 h4
    simp only [readValue, h1, h2, h3, h4]

/-- A parser accepting exactly the digit 7. -/
def sevenParser (s : String) : Except String Nat :=
  if s == "7" then .ok 7 else .error "bad"

/-- Identity display for string-typed errors (`ParseCommandError`'s
`Display` prints its payload). -/
def dispId : String → String := fun e => e

/-- A terminal script whose first line trims to a non-parsing value. -/
def retryTerm : Terminal :=
  ⟨[.ok " x ", .ok "7"], [], []⟩

theorem read_value_retry_and_failure_w :
    retryTerm.print "p" = (.ok (), ⟨[.ok " x ", .ok "7"], [], ["p"]⟩) ∧
    (⟨[.ok " x ", .ok "7"], [], ["p"]⟩ : Terminal).readLine =
      (.ok " x ", ⟨[.ok "7"], [], ["p"]⟩) ∧
    sevenParser (rustTrim " x ") = .error "bad" ∧
    (⟨[.ok "7"], [], ["p"]⟩ : Terminal).printLine
      ("Invalid input: " ++ dispId "bad" ++ ".") =
      (.ok (), ⟨[.ok "7"], [], ["p", "Invalid input: bad.\n"]⟩) ∧
    (readValue dispId 2 retryTerm "p" sevenParser =
      readValue dispId 1 (⟨[.ok "7"], [], ["p", "Invalid input: bad.\n"]⟩ : Terminal)
        "p" sevenParser ∧
    (⟨[.ok "7"], [], ["p", "Invalid input: bad.\n"]⟩ : Terminal).output =
      (⟨[.ok "7"], [], ["p"]⟩ : Terminal).output ++
        ["Invalid input: " ++ dispId "bad" ++ "." ++ "\n"]) :=
  ⟨rfl, rfl, rfl, rfl,
    (read_value_retry_and_failure Nat String dispId "p" sevenParser 1
      retryTerm).2.2.2.1 ⟨[.ok " x ", .ok "7"], [], ["p"]⟩ " x "
      ⟨[.ok "7"], [], ["p"]⟩ "bad" ⟨[.ok "7"], [], ["p", "Invalid input: bad.\n"]⟩
      rfl rfl rfl rfl⟩

/-- `RunFlag` of `looper.rs`. -/
inductive RunFlag where
  | running
  | stopped
deriving DecidableEq

/-- `RunFlag::is_running`. -/
def RunFlag.isRunning : RunFlag → Bool
  | .running => true
  | .stopped => false

/-- The outcome of applying a command (`ApplyOutcome` in `command.rs`). -/
inductive ApplyOutcome where
  | applied
  | skipped
deriving DecidableEq

/-- `ApplyCommandError` of `command.rs`: a recoverable application error
or a fatal terminal access failure. -/
inductive ApplyCommandError (E : Type) where
  | application (err : E)
  | accessTerminal (err : String)

/-- The mutable state a `Looper` owns and lends to commands: the
terminal, the run flag and the caller context.  The `Commander` is an
immutable reference and is passed separately. -/
structure Looper (C : Type) where
  term : Terminal
  runFlag : RunFlag
  context : C
deriving DecidableEq

/-- A `Box<dyn Command>`: `apply` receives the looper state and returns
the outcome (or error) together with the mutated state. -/
def Cmd (C E : Type) : Type :=
  Looper C → Except (ApplyCommandError E) ApplyOutcome × Looper C

/-- `LastCommandOutcome` of `looper.rs`. -/
inductive LastCommandOutcome where
  | applied
  | skipped
  | erred
deriving DecidableEq

/-- `LastCommandOutcome::prompt`. -/
def LastCommandOutcome.prompt : LastCommandOutcome → String
  | .applied => "+>> "
  | .skipped => "->> "
  | .erred => "!>> "

/-- `From<ApplyOutcome> for LastCommandOutcome`. -/
def ApplyOutcome.toLast : ApplyOutcome → LastCommandOutcome
  | .applied => .applied
  | .skipped => .skipped

/-- `read_value` run to completion on a script terminal: one read is
consumed per attempt, so `reads + 1` attempts always suffice; the
default is unreachable. -/
def readValueT {V ε : Type} (disp : ε → String) (t : Terminal) (prompt : String)
    (parser : String → Except ε V) : Except String V × Terminal :=
  (readValue disp (t.reads.length + 1) t prompt parser).getD (.error "fuel exhausted", t)

/-- `read_command` of `command.rs`: `terminal.read_value(prompt, |s| commander.parse(s))`. -/
def readCommand {C E : Type} (cmdr : Commander (Cmd C E)) (st : Looper C)
    (prompt : String) : Except String (Cmd C E) × Looper C :=
  match readValueT dispId st.term prompt (fun s => Commander.parse cmdr s) with
  | (r, t') => (r, { st with term := t' })

/-- The `while` loop of `Looper::run`: check the flag at the iteration
boundary, read a command at the prompt chosen by the last outcome, apply
it, and react to the result.  Fuel bounds the number of iterations;
`none` models a loop still running. -/
def runLoop {C E : Type} (cmdr : Commander (Cmd C E)) (dispE : E → String) :
    Nat → LastCommandOutcome → Looper C → Option (Except String Unit × Looper C)
  | 0, _, _ => none
  | fuel + 1, last, st =>
    if st.runFlag.isRunning then
      match readCommand cmdr st last.prompt with
      | (.error e, st1) => some (.error e, st1)
      | (.ok cmd, st1) =>
        match cmd st1 with
        | (.ok outcome, st2) => runLoop cmdr dispE fuel outcome.toLast st2
        | (.error (.application err), st2) =>
          match st2.term.printLine ("Command error: " ++ dispE err ++ ".") with
          | (.error e, t3) => some (.error e, { st2 with term := t3 })
          | (.ok _, t3) => runLoop cmdr dispE fuel .erred { st2 with term := t3 }
        | (.error (.accessTerminal e), st2) => some (.error e, st2)
    else some (.ok (), st)

/-- `Looper::run`: start the flag and loop with the last outcome
initialised to `Applied`. -/
def Looper.run {C E : Type} (cmdr : Commander (Cmd C E)) (dispE : E → String)
    (fuel : Nat) (st : Looper C) : Option (Except String Unit × Looper C) :=
  runLoop cmdr dispE fuel .applied { st with runFlag := .running }

/-- `Quit::apply` of `command/quit.rs`: stop the run flag, print
`Exiting.`, report `Applied`. -/
def quitApply {C E : Type} : Cmd C E := fun st =>
  match ({ st with runFlag := RunFlag.stopped } : Looper C).term.printLine "Exiting." with
  | (.ok _, t') => (.ok .applied, { st with runFlag := RunFlag.stopped, term := t' })
  | (.error e, t') => (.error (.accessTerminal e), { st with runFlag := RunFlag.stopped, term := t' })

/-- The `quit` parser of `command/quit.rs` (`parse_no_args`). -/
def quitParserDef {C E : Type} : NamedCommandParser (Cmd C E) :=
  { name := "quit", shorthand := some "q",
    description := { purpose := "Exits the program.", usage := "", examples := [] },
    parse := fun s =>
      if s.data.isEmpty then .ok quitApply
      else .error ("invalid arguments to 'quit': '" ++ s ++ "'") }

/-- C3: inside a running loop iteration, an action result of
`Application(err)` makes the loop print exactly `Command error: <err>.`,
record the erred outcome (so the next prompt is the error variant
`!>> `) and continue looping; an `AccessFailure` makes `run` return that
error immediately, with the state exactly as the action left it — no
further prompt printed and no further read attempted. -/
theorem looper_application_and_access_errors (C E : Type)
    (cmdr : Commander (Cmd C E)) (dispE : E → String) (fuel : Nat)
    (last : LastCommandOutcome) (st st1 st2 : Looper C) (cmd : Cmd C E)
    (hrun : st.runFlag = .running)
    (hread : readCommand cmdr st last.prompt = (.ok cmd, st1)) :
    (∀ err, cmd st1 = (.error (.application err), st2) →
      (st2.term.printLine ("Command error: " ++ dispE err ++ ".")).1 = .ok () →
      runLoop cmdr dispE (fuel + 1) last st =
        runLoop cmdr dispE fuel .erred
          { st2 with term :=
            (st2.term.printLine ("Command error: " ++ dispE err ++ ".")).2 } ∧
      ((st2.term.printLine ("Command error: " ++ dispE err ++ ".")).2).output =
        st2.term.output ++ ["Command error: " ++ dispE err ++ "." ++ "\n"] ∧
      LastCommandOutcome.erred.prompt = "!>> ") ∧
    (∀ e, cmd st1 = (.error (.accessTerminal e), st2) →
      runLoop cmdr dispE (fuel + 1) last st = some (.error e, st2)) := by
  have hc : st.runFlag.isRunning = true := by
    rw [hrun]
    rfl
  constructor
  · intro err happ hpr
    refine ⟨?_, printLine_output st2.term ("Command error: " ++ dispE err ++ "."), rfl⟩
    generalize ht3 : (st2.term.printLine ("Command error: " ++ dispE err ++ ".")).2 = t3
    have hfull : st2.term.printLine ("Command error: " ++ dispE err ++ ".") =
        (.ok (), t3) := by
      rw [← hpr, ← ht3]
    simp only [runLoop, hc, if_true, hread, happ, hfull]
  · intro e hacc
    simp only [runLoop, hc, if_true, hread, hacc]

/-- A command that always reports a recoverable application error. -/
def failCmd : Cmd Unit String := fun st => (.error (.application "boom"), st)

/-- A parser definition producing `failCmd`. -/
def failDef : NamedCommandParser (Cmd Unit String) :=
  { name := "ff", shorthand := none,
    description := { purpose := "Fails.", usage := "", examples := [] },
    parse := fun _ => .ok failCmd }

/-- A registry holding only `failDef`. -/
def failCmdr : Commander (Cmd Unit String) :=
  ⟨[failDef], [], [("ff", 0)]⟩

/-- Loop state scripted to read `ff` once. -/
def failSt0 : Looper Unit :=
  ⟨⟨[.ok "ff"], [], []⟩, .running, ()⟩

/-- Loop state after the prompt and the read of `ff`. -/
def failSt1 : Looper Unit :=
  ⟨⟨[], [], ["+>> "]⟩, .running, ()⟩

theorem looper_application_and_access_errors_w :
    failSt0.runFlag = .running ∧
    readCommand failCmdr failSt0 LastCommandOutcome.applied.prompt =
      (.ok failCmd, failSt1) ∧
    failCmd failSt1 = (.error (.application "boom"), failSt1) ∧
    (failSt1.term.printLine ("Command error: " ++ dispId "boom" ++ ".")).1 = .ok () ∧
    (runLoop failCmdr dispId (0 + 1) .applied failSt0 =
      runLoop failCmdr dispId 0 .erred
        { failSt1 with term :=
          (failSt1.term.printLine ("Command error: " ++ dispId "boom" ++ ".")).2 } ∧
    ((failSt1.term.printLine ("Command error: " ++ dispId "boom" ++ ".")).2).output =
      failSt1.term.output ++ ["Command error: " ++ dispId "boom" ++ "." ++ "\n"] ∧
    LastCommandOutcome.erred.prompt = "!>> ") :=
  ⟨rfl, rfl, rfl, rfl,
    (looper_application_and_access_errors Unit String failCmdr dispId 0 .applied
      failSt0 failSt1 failSt1 failCmd rfl rfl).1 "boom" rfl rfl⟩

/-- C4, amended: `run()` resets the Run State to Running at the start of
every invocation (the incoming flag is irrelevant); the continuation
decision depends only on the flag at the iteration boundary after
`apply` returns: an action that leaves the flag Stopped ends the loop
with no further read or execute step and `run` returns `Ok` — also when
the action reported a recoverable error whose report printed — while a
flag left Running continues the loop; an action that itself returns an
`AccessFailure` makes `run` return that failure instead of `Ok` even if
it stopped the flag. -/
theorem looper_stop_semantics (C E : Type) (cmdr : Commander (Cmd C E))
    (dispE : E → String) (fuel : Nat) (last : LastCommandOutcome)
    (st st1 st2 : Looper C) (cmd : Cmd C E) (f g : RunFlag) :
    (Looper.run cmdr dispE fuel { st with runFlag := f } =
      Looper.run cmdr dispE fuel { st with runFlag := g }) ∧
    (st.runFlag = .running → readCommand cmdr st last.prompt = (.ok cmd, st1) →
      (∀ outcome, cmd st1 = (.ok outcome, st2) → st2.runFlag = .stopped →
        runLoop cmdr dispE (fuel + 2) last st = some (.ok (), st2)) ∧
      (∀ outcome, cmd st1 = (.ok outcome, st2) → st2.runFlag = .running →
        runLoop cmdr dispE (fuel + 2) last st =
          runLoop cmdr dispE (fuel + 1) outcome.toLast st2) ∧
      (∀ err, cmd st1 = (.error (.application err), st2) →
        (st2.term.printLine ("Command error: " ++ dispE err ++ ".")).1 = .ok () →
        st2.runFlag = .stopped →
        runLoop cmdr dispE (fuel + 2) last st =
          some (.ok (), { st2 with term :=
            (st2.term.printLine ("Command error: " ++ dispE err ++ ".")).2 }))) := by
  constructor
  · rfl
  · intro hrun hread
    have hc : st.runFlag.isRunning = true := by
      rw [hrun]
      rfl
    refine ⟨?_, ?_, ?_⟩
    · intro outcome happ hstop
      have hc2 : st2.runFlag.isRunning = false := by
        rw [hstop]
        rfl
      simp only [runLoop, hc, if_true, hread, happ, hc2, Bool.false_eq_true,
        if_false]
    · intro outcome happ hcont
      have hc2 : st2.runFlag.isRunning = true := by
        rw [hcont]
        rfl
      simp only [runLoop, hc, if_true, hread, happ]
    · intro err happ hpr hstop
      generalize ht3 : (st2.term.printLine ("Command error: " ++ dispE err ++ ".")).2 = t3
      have hfull : st2.term.printLine ("Command error: " ++ dispE err ++ ".") =
          (.ok (), t3) := by
        rw [← hpr, ← ht3]
      have hc2 : ({ st2 with term := t3 } : Looper C).runFlag.isRunning = false := by
        show st2.runFlag.isRunning = false
        rw [hstop]
        rfl
      simp only [runLoop, hc, if_true, hread, happ, hfull, hc2,
        Bool.false_eq_true, if_false]

/-- Registry holding only the `quit` definition. -/
def quitCmdr : Commander (Cmd Unit String) :=
  ⟨[quitParserDef], [("q", 0)], [("quit", 0)]⟩

/-- Scripted state: one `quit` line; the prompt prints fine but the next
print (`Exiting.`) fails with `boom`. -/
def quitFailSt : Looper Unit :=
  ⟨⟨[.ok "quit"], [none, some "boom"], []⟩, .stopped, ()⟩

/-- Counterexample to C4 as stated: the `quit` action sets the Run State
to Stopped, yet `run()` returns the `AccessFailure` from its failed
`Exiting.` print rather than Ok. -/
theorem looper_stop_with_access_failure_cex :
    (Looper.run quitCmdr dispId 2 quitFailSt).map (fun r => (r.1, r.2.runFlag)) =
      some (.error "boom", RunFlag.stopped) := rfl

/-- Scripted state: one `quit` line with a fully working terminal. -/
def quitOkSt : Looper Unit :=
  ⟨⟨[.ok "quit"], [], []⟩, .stopped, ()⟩

/-- Loop state after the prompt and the read of `quit`. -/
def quitOkSt1 : Looper Unit :=
  ⟨⟨[], [], ["+>> "]⟩, .running, ()⟩

/-- Loop state after `quit` applied: flag stopped, farewell printed. -/
def quitOkSt2 : Looper Unit :=
  ⟨⟨[], [], ["+>> ", "Exiting.\n"]⟩, .stopped, ()⟩

theorem looper_stop_semantics_w :
    (Looper.run quitCmdr dispId 1 { quitOkSt with runFlag := .stopped } =
      Looper.run quitCmdr dispId 1 { quitOkSt with runFlag := .running }) ∧
    ({ quitOkSt with runFlag := .running } : Looper Unit).runFlag = .running ∧
    readCommand quitCmdr { quitOkSt with runFlag := .running }
      LastCommandOutcome.applied.prompt = (.ok quitApply, quitOkSt1) ∧
    (quitApply : Cmd Unit String) quitOkSt1 = (.ok .applied, quitOkSt2) ∧
    quitOkSt2.runFlag = .stopped ∧
    runLoop quitCmdr dispId (0 + 2) .applied { quitOkSt with runFlag := .running } =
      some (.ok (), quitOkSt2) :=
  ⟨(looper_stop_semantics Unit String quitCmdr dispId 1 .applied quitOkSt
      quitOkSt1 quitOkSt2 quitApply .stopped .running).1,
   rfl, rfl, rfl, rfl,
   ((looper_stop_semantics Unit String quitCmdr dispId 0 .applied
      { quitOkSt with runFlag := .running } quitOkSt1 quitOkSt2 quitApply
      .running .running).2 rfl rfl).1 .applied rfl rfl⟩
